import Mathlib

/-!
Verification development for the dove DNS server (bensku/dove).

The Go sources are shallowly embedded: Go strings are byte lists (`GoStr`),
Go string builtins (`strings.HasPrefix`, `strings.HasSuffix`,
`strings.TrimSuffix`, slicing) are modelled byte-for-byte, DNS resource
records are a concrete structure, and each Go function under scrutiny is
translated into an executable Lean definition mirroring its control flow.
-/

namespace Dove

/-- Go strings are byte sequences; we model them as lists of naturals.
Concrete examples are written through `gs`. -/
abbrev GoStr := List Nat

/-- Embed an ASCII Lean string literal as a Go byte string. -/
def gs (s : String) : GoStr := s.data.map Char.toNat

/-- Model of Go `strings.HasPrefix s p`. -/
def goStartsWith : GoStr → GoStr → Bool
  | _, [] => true
  | [], _ :: _ => false
  | a :: s, b :: p => a == b && goStartsWith s p

/-- Model of Go `strings.HasSuffix s p`: length check plus byte comparison of
the tail, exactly the observable behaviour of the Go builtin. -/
def goEndsWith (s p : GoStr) : Bool :=
  p.length ≤ s.length && s.drop (s.length - p.length) == p

/-- Model of Go `strings.TrimSuffix s p`. -/
def goTrimEnd (s p : GoStr) : GoStr :=
  if goEndsWith s p then s.take (s.length - p.length) else s

/-- The byte value of `'.'`. -/
def dotByte : Nat := 46

/-- Model of Go `strings.Contains(x, ".")`. -/
def containsDot (x : GoStr) : Bool := x.contains dotByte

/-- A DNS resource record as the core sees it (spec §3): owner name, numeric
type, class, TTL and an RDATA blob the core never parses.  This stands for
the library type `dns.RR`; only these header fields and the opaque payload
are ever touched by the repository's code. -/
structure RR where
  name : GoStr
  rrtype : Nat
  cls : Nat
  ttl : Nat
  rdata : List Nat
  deriving Repr, DecidableEq

/-- `newRecord.Header().Name = n` on a fresh value: owner-name rewrite. -/
def setName (n : GoStr) (r : RR) : RR := { r with name := n }

/-- `dns.TypeANY`. -/
def typeANY : Nat := 255

/-- `dns.TypeA`. -/
def typeA : Nat := 1

/-- zone.DnsRecord: `{Id string; Record dns.RR}`. -/
structure DnsRecord where
  id : GoStr
  rr : RR
  deriving Repr, DecidableEq

/-- zone.Zone as built by the current storage adapters:
`{Name string; Records []DnsRecord; UpdatedHash string}`. -/
structure ZoneData where
  name : GoStr
  records : List DnsRecord
  updatedHash : GoStr
  deriving Repr, DecidableEq

/-- One entry of a DNS question section: name and qtype. -/
structure Question where
  qname : GoStr
  qtype : Nat
  deriving Repr, DecidableEq

/-! ## Query engine (nameserver handleRequest, src/unnamed/part_000 lines 17-64)

The handler computes, per question, the query name relative to the zone
(`strings.TrimSuffix(q.Name, zone.Name)`, empty mapped to `"."`), then walks
the record list once.  A record whose owner equals the relative name and
whose type matches (or qtype is ANY) yields a copy with owner set to the
request's q.Name and `continue`s; otherwise, if the record's owner starts
with `"*."`, the handler takes the owner minus the leading two bytes as the
wildcard suffix and synthesizes an answer when the ABSOLUTE q.Name ends with
that suffix, the bytes of q.Name before the suffix contain no `'.'`, and the
type matches. -/

/-- `name := strings.TrimSuffix(q.Name, zone.Name); if name == "" { name = "." }`. -/
def relativeName (qName zoneName : GoStr) : GoStr :=
  let name := goTrimEnd qName zoneName
  if name = [] then [dotByte] else name

/-- The wildcard suffix: `recordName[2:]` (bytes after the leading `"*."`). -/
def wildcardSuffix (recordName : GoStr) : GoStr := recordName.drop 2

/-- The wildcard guard of the handler: owner starts with `"*."`, q.Name ends
with the suffix, and `q.Name[:len(q.Name)-len(wildcardSuffix)]` contains no
dot. -/
def wildcardMatches (recordName qName : GoStr) : Bool :=
  goStartsWith recordName (gs "*.") &&
  goEndsWith qName (wildcardSuffix recordName) &&
  !containsDot (qName.take (qName.length - (wildcardSuffix recordName).length))

/-- The qtype filter `q.Qtype == dns.TypeANY || record.Record.Header().Rrtype == q.Qtype`. -/
def typeOk (qtype : Nat) (r : RR) : Bool :=
  qtype == typeANY || r.rrtype == qtype

/-- The answer (if any) that one record contributes to one question, exactly
as the body of the record loop decides it: the direct-match branch appends a
copy with owner set to q.Name and skips the wildcard branch; a record whose
owner equals the relative name but whose type does not match falls through
to the wildcard branch. -/
def recordAnswer (relName qName : GoStr) (qtype : Nat) (r : RR) : Option RR :=
  if r.name == relName && typeOk qtype r then
    some (setName qName r)
  else if wildcardMatches r.name qName then
    if typeOk qtype r then some (setName qName r) else none
  else none

/-- The record loop for one question, appending to the accumulated answers. -/
def questionAnswers (z : ZoneData) (q : Question) (acc : List RR) : List RR :=
  z.records.foldl
    (fun a r =>
      match recordAnswer (relativeName q.qname z.name) q.qname q.qtype r.rr with
      | some x => a ++ [x]
      | none => a)
    acc

/-- handleRequest's answer section: the question loop over the shared
`m.Answer` accumulator. -/
def handleAnswers (z : ZoneData) (qs : List Question) : List RR :=
  qs.foldl (fun acc q => questionAnswers z q acc) []

/-! ## Zone selection and the front-end handler
(ZoneServer.FindZone, src/unnamed/part_004 lines 154-172, and the
corresponding Server.handleRequest, src/nameserver/server.go lines 104-153)

`FindZone` walks the zone table keeping the key of greatest length; it
returns nil only when no key had positive length.  The `query` parameter is
never consulted.  The handler sets `missingZones` when `FindZone` returned
nil for some question, answers each question against the found zone's
records (direct matches are appended as stored, wildcard matches as renamed
copies), and finally sets RCODE to NXDOMAIN exactly when `missingZones` is
set and the answer section is empty. -/

/-- The zone table: Go map modelled as an association list (map iteration
order is unspecified in Go; the list order stands in for one iteration). -/
abbrev ZoneTable := List (GoStr × ZoneData)

/-- Association-list lookup (`s.Zones[zoneName]`). -/
def tableLookup (t : ZoneTable) (k : GoStr) : Option ZoneData :=
  match t with
  | [] => none
  | (k', z) :: rest => if k' == k then some z else tableLookup rest k

/-- `FindZone(query)`: fold the table keys keeping the strictly longest;
return nil when the best key is empty.  The `query` argument is unused by
the source. -/
def findZone (t : ZoneTable) (query : GoStr) : Option ZoneData :=
  let best := t.foldl (fun (b : GoStr) e => if e.1.length > b.length then e.1 else b) []
  if best = [] then none else tableLookup t best

/-- The per-record branch of the front-end handler (server.go revision):
direct match compares the stored owner against the absolute q.Name and
appends the stored record itself; the wildcard branch is the same guard as
the query engine and appends a renamed copy. -/
def serverRecordAnswer (qName : GoStr) (qtype : Nat) (r : RR) : Option RR :=
  if r.name == qName && typeOk qtype r then
    some r
  else if wildcardMatches r.name qName then
    if typeOk qtype r then some (setName qName r) else none
  else none

/-- Result of the front-end handler: answer section, RCODE, Authoritative. -/
structure ServerReply where
  answers : List RR
  rcode : Nat
  authoritative : Bool
  deriving Repr, DecidableEq

/-- `dns.RcodeNameError` (NXDOMAIN). -/
def rcodeNXDOMAIN : Nat := 3

/-- `dns.RcodeSuccess` (NoError), as set by `m.SetReply`. -/
def rcodeNoError : Nat := 0

/-- One iteration of the question loop of Server.handleRequest: a question
whose `FindZone` is nil sets the `missingZones` flag; otherwise the found
zone's records are scanned and matching answers appended. -/
def serverStep (t : ZoneTable) (acc : List RR × Bool) (q : Question) : List RR × Bool :=
  match findZone t q.qname with
  | none => (acc.1, true)
  | some z =>
      (z.records.foldl
        (fun a r =>
          match serverRecordAnswer q.qname q.qtype r.rr with
          | some x => a ++ [x]
          | none => a)
        acc.1, acc.2)

/-- Server.handleRequest: loop over questions accumulating answers and the
`missingZones` flag, then decide the RCODE (`m.SetReply` starts from
NoError; the final check sets NXDOMAIN when `missingZones` is set and the
answer section is empty).  Authoritative is set unconditionally. -/
def serverHandle (t : ZoneTable) (qs : List Question) : ServerReply :=
  let res := qs.foldl (serverStep t) ([], false)
  { answers := res.1
    rcode := if res.2 && res.1.isEmpty then rcodeNXDOMAIN else rcodeNoError
    authoritative := true }

/-! ## DNS wire codec (external collaborator)

`dns.PackRR` / `dns.UnpackRR` belong to the miekg/dns library, an external
collaborator of the repository (spec §1, §6).  They are modelled as a
concrete injective, self-delimiting encoding with the contract the adapters
rely on (spec §6: the packed RR's length is self-describing, so the decoder
reports how many bytes it consumed; undecodable bytes surface as an error).
The repository's own logic never inspects the packed bytes. -/

/-- A fixed leading byte marking a packed RR in the codec model. -/
def rrMagic : Nat := 208

/-- Codec model of `dns.PackRR`: a self-delimiting byte encoding of an RR. -/
def packRR (r : RR) : List Nat :=
  rrMagic :: r.name.length :: (r.name ++ r.rrtype :: r.cls :: r.ttl ::
    r.rdata.length :: r.rdata)

/-- Codec model of the decoder on a byte suffix: returns the RR and the
number of bytes consumed, or `none` for undecodable input. -/
def parseRR (l : List Nat) : Option (RR × Nat) :=
  match l with
  | m :: nl :: rest =>
      if m = rrMagic then
        if nl ≤ rest.length then
          match rest.drop nl with
          | t :: c :: ttl :: rl :: rest2 =>
              if rl ≤ rest2.length then
                some (⟨rest.take nl, t, c, ttl, rest2.take rl⟩, 2 + nl + 4 + rl)
              else none
          | _ => none
        else none
      else none
  | _ => none

/-- Codec model of `dns.UnpackRR(data, off)`: decode at an offset, returning
the record and the offset just past it. -/
def unpackRR (data : List Nat) (off : Nat) : Option (RR × Nat) :=
  match parseRR (data.drop off) with
  | some (r, consumed) => some (r, off + consumed)
  | none => none

/-! ## Fallback file storage (src/zone/file.go)

A zone file is the concatenation of records, each a 1-byte length prefix of
the id, the id bytes, then the packed RR.  `Patch` appends one such frame;
`Clear` truncates the file; `Load` decodes frames in a do-while loop that
stops when the decoder's reported offset reaches the file length. -/

/-- `writeVarString`: `data[offset] = byte(len(str))` truncates the length
to `len mod 256`; all id bytes are then copied.  Modelled as the bytes
produced. -/
def writeVarString (id : GoStr) : List Nat := (id.length % 256) :: id

/-- `readVarString(data, offset)`: read the length byte, then slice that
many bytes.  `none` models the Go panic on an out-of-range index or slice
(offset at or past the end, or not enough bytes for the id). -/
def readVarString (data : List Nat) (offset : Nat) : Option (GoStr × Nat) :=
  match data.get? offset with
  | none => none
  | some len =>
      if offset + 1 + len ≤ data.length then
        some ((data.drop (offset + 1)).take len, offset + 1 + len)
      else none

/-- The bytes `FileStorage.Patch` appends for one record: the var-string id
followed by the packed RR. -/
def fileFrame (r : DnsRecord) : List Nat := writeVarString r.id ++ packRR r.rr

/-- `FileStorage.Patch`: append the frame to the zone file's contents. -/
def filePatch (contents : List Nat) (r : DnsRecord) : List Nat :=
  contents ++ fileFrame r

/-- `FileStorage.Clear`: truncate the zone file to zero length. -/
def fileClear : List Nat := []

/-- Outcome of `FileStorage.Load` on a zone file's bytes: `crashed` models a
Go runtime panic (out-of-range index in `readVarString`), `failed` models
the returned unpack error, `ok` carries the decoded records. -/
inductive LoadOutcome where
  | crashed : LoadOutcome
  | failed : LoadOutcome
  | ok : List DnsRecord → LoadOutcome
  deriving Repr, DecidableEq

/-- The record-reading do-while loop of `FileStorage.Load`: read a
var-string id, unpack an RR, append the record, and stop when the decoder's
end offset equals the file length.  `fuel` bounds the recursion; every
successful frame advances the offset, so `data.length + 1` fuel suffices. -/
def loadLoop (data : List Nat) : Nat → Nat → LoadOutcome
  | 0, _ => LoadOutcome.crashed
  | fuel + 1, offset =>
      match readVarString data offset with
      | none => LoadOutcome.crashed
      | some (id, idEnd) =>
          match unpackRR data idEnd with
          | none => LoadOutcome.failed
          | some (rr, rrEnd) =>
              if rrEnd = data.length then LoadOutcome.ok [⟨id, rr⟩]
              else
                match loadLoop data fuel rrEnd with
                | LoadOutcome.ok recs => LoadOutcome.ok (⟨id, rr⟩ :: recs)
                | other => other

/-- `FileStorage.Load` applied to the bytes of an existing zone file. -/
def fileLoad (data : List Nat) : LoadOutcome :=
  loadLoop data (data.length + 1) 0

/-- The file contents produced by encoding a record list back to back, as a
clear-then-patch-all sequence leaves them. -/
def encodeRecords (recs : List DnsRecord) : List Nat := recs.flatMap fileFrame

/-! ## InternalTransfer (src/zone/storage.go lines 20-32)

`InternalTransfer(zone, to)` clears the target and patches every record of
the zone in order.  Applied to the file backend this yields the zone file
contents below (file-system errors aside, both operations always succeed on
the file backend). -/

/-- The zone file contents after `InternalTransfer(zone, fileStorage)`:
clear truncates to empty, then each record is appended. -/
def internalTransferFile (z : ZoneData) : List Nat :=
  z.records.foldl filePatch fileClear

/-! ## Primary etcd storage (src/zone/etcd.go)

Keys live under `prefix + zoneId + "/"`; the value of
`... + "__updatedHash"` is the change token, every other key under the
prefix is `prefix + zoneId + "/" + recordId` holding the packed RR.  The
etcd KV store is modelled as an association list of key/value byte strings;
a range get filters by key prefix (etcd returns keys in order; only the set
of entries matters to the claims below). -/

/-- The etcd key/value store. -/
abbrev KV := List (GoStr × List Nat)

/-- `clientv3.OpPut`: replace the value of an existing key, else append. -/
def kvPut (kv : KV) (k : GoStr) (v : List Nat) : KV :=
  if kv.any (fun e => e.1 == k) then
    kv.map (fun e => if e.1 == k then (k, v) else e)
  else kv ++ [(k, v)]

/-- A range get with `clientv3.WithPrefix()`. -/
def kvGetRange (kv : KV) (p : GoStr) : KV :=
  kv.filter (fun e => goStartsWith e.1 p)

/-- A range delete with `clientv3.WithPrefix()`. -/
def kvDelRange (kv : KV) (p : GoStr) : KV :=
  kv.filter (fun e => !goStartsWith e.1 p)

/-- `etcdPrefix(zoneId)`: `storage.prefix + zoneId + "/"`. -/
def etcdPrefixOf (p z : GoStr) : GoStr := p ++ z ++ gs "/"

/-- The change-token key suffix `"__updatedHash"`. -/
def updatedHashKey : GoStr := gs "__updatedHash"

/-- `EtcdStorage.Patch`: one transaction putting the packed record under
`prefix + id` and a fresh token under `prefix + "__updatedHash"`.  The
freshly generated UUID is passed in as `hash`. -/
def etcdPatch (p : GoStr) (kv : KV) (z : GoStr) (r : DnsRecord) (hash : GoStr) : KV :=
  let pre := etcdPrefixOf p z
  kvPut (kvPut kv (pre ++ r.id) (packRR r.rr)) (pre ++ updatedHashKey) hash

/-- `EtcdStorage.Clear`: range-delete everything under
`storage.prefix + zoneId` (note: without the trailing slash). -/
def etcdClear (p : GoStr) (kv : KV) (z : GoStr) : KV :=
  kvDelRange kv (p ++ z)

/-- The entry loop of `EtcdStorage.Load`: the token entry is recognised by
its key and skipped, every other value is unpacked from offset 0; an unpack
failure fails the whole zone load. -/
def etcdLoadEntries (pre : GoStr) : List (GoStr × List Nat) → Option (List DnsRecord)
  | [] => some []
  | (k, v) :: rest =>
      if k == pre ++ updatedHashKey then etcdLoadEntries pre rest
      else
        match unpackRR v 0 with
        | none => none
        | some (rr, _) =>
            match etcdLoadEntries pre rest with
            | none => none
            | some recs => some (⟨k.drop pre.length, rr⟩ :: recs)

/-- `EtcdStorage.Load`: range-scan the zone's prefix and decode the record
entries; returns the record list of the loaded zone (`none` models a load
error). -/
def etcdLoad (p : GoStr) (kv : KV) (z : GoStr) : Option (List DnsRecord) :=
  etcdLoadEntries (etcdPrefixOf p z) (kvGetRange kv (etcdPrefixOf p z))

/-! ## Zone coordinator (ZoneServer.loadZones, src/unnamed/part_004 lines 23-81)

The reconciliation pass lists the zone ids, replaces `s.ZoneIds`, then for
each id asks the storage whether the in-table snapshot is current and, if
not, loads the zone, swaps it into the table, notifies the listener and
mirrors it to the fallback.  Any `IsCurrent` or `Load` error makes the
function `return err` immediately, keeping all effects applied so far and
skipping the rest of the pass, including the removal loop at the end. -/

/-- Coordinator state: `s.ZoneIds` and the zone table `s.Zones`. -/
structure CoordState where
  zoneIds : List GoStr
  zones : ZoneTable
  deriving Repr, DecidableEq

/-- The storage seen by one reconciliation pass: the zone listing, the
per-zone currency check (taking the present table entry or nil), and the
per-zone load.  `none` models the error return of the corresponding call. -/
structure StorageBehavior where
  listZones : Option (List GoStr)
  isCurrent : GoStr → Option ZoneData → Option Bool
  load : GoStr → Option ZoneData

/-- Replace (or insert) one zone table entry: `s.Zones[zoneId] = &zone`. -/
def tableSet (t : ZoneTable) (k : GoStr) (z : ZoneData) : ZoneTable :=
  if t.any (fun e => e.1 == k) then
    t.map (fun e => if e.1 == k then (k, z) else e)
  else t ++ [(k, z)]

/-- Delete one zone table entry: `delete(s.Zones, zoneId)`. -/
def tableRemove (t : ZoneTable) (k : GoStr) : ZoneTable :=
  t.filter (fun e => !(e.1 == k))

/-- The result of a reconciliation pass: the coordinator state, the
`onZoneUpdated` notifications in order, the zones handed to
`InternalTransfer`, and whether the pass ran to completion (`false` models
the early `return err`). -/
structure PassResult where
  state : CoordState
  events : List (GoStr × Option ZoneData)
  transfers : List ZoneData
  completed : Bool
  deriving Repr, DecidableEq

/-- The per-zone update loop.  On an `IsCurrent` or `Load` error the pass
stops, returning the state reached so far. -/
def zoneLoop (storage : StorageBehavior) :
    List GoStr → CoordState → List (GoStr × Option ZoneData) → List ZoneData → PassResult
  | [], st, evs, trs => ⟨st, evs, trs, true⟩
  | z :: rest, st, evs, trs =>
      match storage.isCurrent z (tableLookup st.zones z) with
      | none => ⟨st, evs, trs, false⟩
      | some true => zoneLoop storage rest st evs trs
      | some false =>
          match storage.load z with
          | none => ⟨st, evs, trs, false⟩
          | some zn =>
              zoneLoop storage rest
                { st with zones := tableSet st.zones z zn }
                (evs ++ [(z, some zn)]) (trs ++ [zn])

/-- The removal loop: every old zone id absent from the fresh listing is
dropped from the table with a nil notification (the nameserver always
registers a callback, so the callback-present branch is taken). -/
def removalLoop (newIds : List GoStr) (oldIds : List GoStr)
    (st : CoordState) (evs : List (GoStr × Option ZoneData)) :
    CoordState × List (GoStr × Option ZoneData) :=
  oldIds.foldl
    (fun acc z =>
      if newIds.contains z then acc
      else ({ acc.1 with zones := tableRemove acc.1.zones z }, acc.2 ++ [(z, none)]))
    (st, evs)

/-- `ZoneServer.loadZones` for one pass: list the zones (a listing error
aborts with no state change beyond none), stash the old ids, overwrite
`s.ZoneIds`, run the update loop, and—only if it completed—run the removal
loop over the old ids. -/
def loadZones (storage : StorageBehavior) (st : CoordState) : PassResult :=
  match storage.listZones with
  | none => ⟨st, [], [], false⟩
  | some ids =>
      let oldIds := st.zoneIds
      let st1 : CoordState := { st with zoneIds := ids }
      let r := zoneLoop storage ids st1 [] []
      if r.completed then
        let (st2, evs2) := removalLoop ids oldIds r.state r.events
        ⟨st2, evs2, r.transfers, true⟩
      else r

/-! ## Heap view of handleRequest (src/unnamed/part_000 lines 17-64)

For the frame-effect claim the handler is modelled at the level of Go's
reference semantics: every `dns.RR` lives in a heap cell, a zone record
holds the address of its cell, `dns.Copy` allocates a fresh cell holding
the same value, and `newRecord.Header().Name = q.Name` writes that fresh
cell.  The answer section is the list of cell addresses appended to
`m.Answer`.  This lets "the stored record is never aliased into the
response" and "the zone's records are unchanged" be stated about addresses
and cell contents instead of being vacuous in a value semantics. -/

/-- The heap of RR cells; addresses are list indices. -/
abbrev Heap := List RR

/-- Read the RR behind an address (all addresses dereferenced by the code
are valid; the default is never reached under the theorems' hypotheses). -/
def heapRead (h : Heap) (a : Nat) : RR := (h.get? a).getD ⟨[], 0, 0, 0, []⟩

/-- `dns.Copy`: allocate a fresh cell holding the same value. -/
def heapAlloc (h : Heap) (r : RR) : Heap × Nat := (h ++ [r], h.length)

/-- An in-place field write through a reference. -/
def heapWrite (h : Heap) (a : Nat) (r : RR) : Heap := h.set a r

/-- A zone record in the heap view: id and the address of its RR cell. -/
structure HRecord where
  id : GoStr
  addr : Nat
  deriving Repr, DecidableEq

/-- A zone in the heap view. -/
structure HZone where
  name : GoStr
  records : List HRecord
  deriving Repr, DecidableEq

/-- The record-loop body in the heap view.  The direct-match branch copies
the stored record and rewrites the copy's owner to q.Name; the wildcard
branch does the same before checking the type, appending the copy's address
only when the type matches (mirroring that `dns.Copy` and the owner write
happen inside the wildcard guard but before the type check). -/
def hRecordStep (relName qName : GoStr) (qtype : Nat)
    (acc : Heap × List Nat) (rec : HRecord) : Heap × List Nat :=
  let h := acc.1
  let ans := acc.2
  let rr := heapRead h rec.addr
  if rr.name == relName && typeOk qtype rr then
    let alloc := heapAlloc h rr
    let h2 := heapWrite alloc.1 alloc.2 (setName qName (heapRead alloc.1 alloc.2))
    (h2, ans ++ [alloc.2])
  else if wildcardMatches rr.name qName then
    let alloc := heapAlloc h rr
    let h2 := heapWrite alloc.1 alloc.2 (setName qName (heapRead alloc.1 alloc.2))
    if typeOk qtype rr then (h2, ans ++ [alloc.2]) else (h2, ans)
  else (h, ans)

/-- One question of the heap-view handler: compute the relative name, then
run the record loop. -/
def hQuestionStep (z : HZone) (acc : Heap × List Nat) (q : Question) : Heap × List Nat :=
  z.records.foldl (hRecordStep (relativeName q.qname z.name) q.qname q.qtype) acc

/-- handleRequest in the heap view: the question loop threading the heap
and the answer addresses. -/
def handleRequestHeap (z : HZone) (qs : List Question) (h0 : Heap) : Heap × List Nat :=
  qs.foldl (hQuestionStep z) (h0, [])

/-! ## Concrete fixtures

Values used by the counterexample and witness theorems below.  Records are
as the admin path stores them: `dns.NewRR` on a body such as
`"* 299 IN A 1.2.3.7"` yields the relative owner made absolute against the
root origin, i.e. `"*."`, `"foo."`, `"."`. -/

/-- `* 299 IN A 1.2.3.7` as stored (owner `"*."`). -/
def starRecord : DnsRecord := ⟨gs "test4", ⟨gs "*.", typeA, 1, 299, [1, 2, 3, 7]⟩⟩

/-- `foo 300 IN A 1.2.3.5` as stored (owner `"foo."`). -/
def fooRecord : DnsRecord := ⟨gs "test2", ⟨gs "foo.", typeA, 1, 300, [1, 2, 3, 5]⟩⟩

/-- The `dove.test.` zone of the repository's integration test, reduced to
the wildcard record. -/
def doveZone : ZoneData := ⟨gs "dove.test.", [starRecord], gs "h1"⟩

/-- A zone named `test.` holding an exact record for `foo.` and a wildcard
`*.oo.test.` whose guard accepts the query `foo.test.`. -/
def shadowZone : ZoneData :=
  ⟨gs "test.", [fooRecord, ⟨gs "w", ⟨gs "*.oo.test.", typeA, 1, 299, [9, 9, 9, 9]⟩⟩], gs "h2"⟩

/-- A zone with two wildcard records whose guards both accept `foo.test.`. -/
def twoWildZone : ZoneData :=
  ⟨gs "test.", [⟨gs "w1", ⟨gs "*.oo.test.", typeA, 1, 299, [1, 1, 1, 1]⟩⟩,
                ⟨gs "w2", ⟨gs "*.oo.test.", typeA, 1, 299, [2, 2, 2, 2]⟩⟩], gs "h3"⟩

/-- An empty `example.com.` zone for the zone-selection fixture. -/
def exampleZone : ZoneData := ⟨gs "example.com.", [], gs "h4"⟩

/-- A zone table holding only `example.com.`. -/
def exampleTable : ZoneTable := [(gs "example.com.", exampleZone)]

/-- An apex A record for the file/etcd round-trip fixtures. -/
def apexRecord : DnsRecord := ⟨gs "record", ⟨gs ".", typeA, 1, 300, [127, 0, 0, 1]⟩⟩

/-- A record whose id collides with the etcd change-token key. -/
def hashIdRecord : DnsRecord := ⟨gs "__updatedHash", ⟨gs ".", typeA, 1, 300, [127, 0, 0, 1]⟩⟩

/-- A record whose id is 256 bytes long. -/
def longIdRecord : DnsRecord := ⟨List.replicate 256 65, ⟨gs ".", typeA, 1, 300, [1, 2, 3, 4]⟩⟩

/-- A `dove.test.` zone with no records, as a freshly declared zone is. -/
def emptyZone : ZoneData := ⟨gs "dove.test.", [], []⟩

/-- Fresh and stale snapshots for the coordinator fixture. -/
def oldZ1 : ZoneData := ⟨gs "a.", [apexRecord], gs "old1"⟩

/-- The stale in-table snapshot of the second zone. -/
def oldZ2 : ZoneData := ⟨gs "b.", [], gs "old2"⟩

/-- The fresh copy of the second zone that the primary would serve. -/
def newZ2 : ZoneData := ⟨gs "b.", [fooRecord], gs "new2"⟩

/-- Coordinator state holding stale snapshots of zones `a.` and `b.`. -/
def coordSt : CoordState :=
  ⟨[gs "a.", gs "b."], [(gs "a.", oldZ1), (gs "b.", oldZ2)]⟩

/-- A storage behaviour whose load of `a.` fails while `b.` is stale and
loadable: both zones are listed, neither snapshot is current. -/
def failAStorage : StorageBehavior where
  listZones := some [gs "a.", gs "b."]
  isCurrent := fun _ _ => some false
  load := fun z => if z == gs "b." then some newZ2 else none

/-- The heap fixture for the frame-effect claim: two cells holding the
`foo.` and apex records of `dove.test.`. -/
def fixtureHeap : Heap := [⟨gs "foo.", typeA, 1, 300, [1, 2, 3, 5]⟩, ⟨gs ".", typeA, 1, 300, [1, 2, 3, 4]⟩]

/-- The heap-view `dove.test.` zone pointing at `fixtureHeap`. -/
def fixtureHZone : HZone := ⟨gs "dove.test.", [⟨gs "test2", 0⟩, ⟨gs "test1", 1⟩]⟩

/-! ## Helper lemmas: query engine -/

theorem questionAnswers_eq (z : ZoneData) (q : Question) (acc : List RR) :
    questionAnswers z q acc =
      acc ++ z.records.filterMap
        (fun r => recordAnswer (relativeName q.qname z.name) q.qname q.qtype r.rr) := by
  unfold questionAnswers
  induction z.records generalizing acc with
  | nil => simp
  | cons r rest ih =>
      simp only [List.foldl_cons, List.filterMap_cons]
      cases h : recordAnswer (relativeName q.qname z.name) q.qname q.qtype r.rr with
      | none => simp [h, ih]
      | some x => simp [h, ih]

theorem handleAnswers_eq (z : ZoneData) (qs : List Question) :
    handleAnswers z qs =
      qs.flatMap (fun q =>
        z.records.filterMap
          (fun r => recordAnswer (relativeName q.qname z.name) q.qname q.qtype r.rr)) := by
  unfold handleAnswers
  have aux : ∀ (l : List Question) (acc : List RR),
      l.foldl (fun acc q => questionAnswers z q acc) acc =
        acc ++ l.flatMap (fun q =>
          z.records.filterMap
            (fun r => recordAnswer (relativeName q.qname z.name) q.qname q.qtype r.rr)) := by
    intro l
    induction l with
    | nil => intro acc; simp
    | cons q rest ih =>
        intro acc
        simp only [List.foldl_cons, List.flatMap_cons]
        rw [ih, questionAnswers_eq, List.append_assoc]
  simpa using aux qs []

theorem mem_handleAnswers_of_recordAnswer (z : ZoneData) (q : Question)
    (r : DnsRecord) (x : RR) (hr : r ∈ z.records)
    (h : recordAnswer (relativeName q.qname z.name) q.qname q.qtype r.rr = some x) :
    x ∈ handleAnswers z [q] := by
  rw [handleAnswers_eq]
  simp only [List.flatMap_cons, List.flatMap_nil, List.append_nil, List.mem_filterMap]
  exact ⟨r, hr, h⟩

/-! ## Helper lemmas: front-end handler -/

/-- `FindZone` never reads its query argument. -/
theorem findZone_const (t : ZoneTable) (q q' : GoStr) :
    findZone t q = findZone t q' := rfl

theorem serverStep_missing (t : ZoneTable) (acc : List RR × Bool) (q : Question) :
    (serverStep t acc q).2 = (acc.2 || (findZone t q.qname).isNone) := by
  unfold serverStep
  cases h : findZone t q.qname with
  | none => simp [h]
  | some z => simp [h]

theorem serverHandle_missing (t : ZoneTable) (qs : List Question) :
    (qs.foldl (serverStep t) ([], false)).2
      = qs.any (fun q => (findZone t q.qname).isNone) := by
  have aux : ∀ (l : List Question) (a0 : List RR) (m0 : Bool),
      (l.foldl (serverStep t) (a0, m0)).2
        = (m0 || l.any (fun q => (findZone t q.qname).isNone)) := by
    intro l
    induction l with
    | nil => intro a0 m0; simp
    | cons q rest ih =>
        intro a0 m0
        have hcase := serverStep_missing t (a0, m0) q
        cases hstep : serverStep t (a0, m0) q with
        | mk a1 m1 =>
            simp only [List.foldl_cons, hstep, List.any_cons]
            rw [ih a1 m1]
            have hm1 : m1 = (m0 || (findZone t q.qname).isNone) := by
              simpa [hstep] using hcase
            rw [hm1]
            cases m0 <;> cases hfz : (findZone t q.qname).isNone <;> simp
  simpa using aux qs [] false

/-! ## Claim C1 -/

/-- C1.  The claim states that `FindZone` returns the zone whose apex is the
longest suffix of the question name and nil when no apex is a suffix.  The
code never compares the table keys against the query: with a table holding
only `example.com.`, the query `other.net.` (of which `example.com.` is not
a suffix) still selects the `example.com.` zone instead of no zone.  This
contradicts both the claim and the function's own comments ("the most
specific zone that matches this query"). -/
theorem c1_findZone_ignores_query :
    findZone exampleTable (gs "other.net.") = some exampleZone ∧
    goEndsWith (gs "other.net.") (gs "example.com.") = false := by
  exact ⟨by decide, by decide⟩

/-! ## Claim C2 -/

/-- C2 counterexample.  In the zone `test.` holding the exact record
`foo.`/A and the wildcard `*.oo.test.`/A, the query (`foo.test.`, A) has an
exact match, yet the answer also contains the record synthesized from the
wildcard owner: the handler has no separate passes, so an exact match does
not suppress wildcard synthesis from other records. -/
theorem c2_exact_does_not_suppress_wildcard :
    (fooRecord ∈ shadowZone.records ∧
      (fooRecord.rr.name == relativeName (gs "foo.test.") shadowZone.name &&
        typeOk typeA fooRecord.rr) = true) ∧
    handleAnswers shadowZone [⟨gs "foo.test.", typeA⟩] =
      [setName (gs "foo.test.") fooRecord.rr,
       setName (gs "foo.test.") ⟨gs "*.oo.test.", typeA, 1, 299, [9, 9, 9, 9]⟩] ∧
    goStartsWith (gs "*.oo.test.") (gs "*.") = true := by
  exact ⟨⟨by decide, by decide⟩, by decide, by decide⟩

/-- C2 as amended.  When at least one exact-match record exists, the answer
contains a copy (owner rewritten to the query name) of every exact-match
record; but wildcard records are not suppressed: every record that fails
the direct-match test yet passes the wildcard guard and the type filter
also contributes an answer. -/
theorem c2_exact_matches_all_answered (z : ZoneData) (qname : GoStr) (qtype : Nat)
    (hex : ∃ r ∈ z.records,
      (r.rr.name == relativeName qname z.name && typeOk qtype r.rr) = true) :
    (∀ r ∈ z.records,
      (r.rr.name == relativeName qname z.name && typeOk qtype r.rr) = true →
      setName qname r.rr ∈ handleAnswers z [⟨qname, qtype⟩]) ∧
    (∀ r ∈ z.records,
      (r.rr.name == relativeName qname z.name && typeOk qtype r.rr) = false →
      wildcardMatches r.rr.name qname = true →
      typeOk qtype r.rr = true →
      setName qname r.rr ∈ handleAnswers z [⟨qname, qtype⟩]) := by
  clear hex
  constructor
  · intro r hr hcond
    apply mem_handleAnswers_of_recordAnswer z ⟨qname, qtype⟩ r _ hr
    simp only [recordAnswer] at *
    simp [hcond]
  · intro r hr hcond hw ht
    apply mem_handleAnswers_of_recordAnswer z ⟨qname, qtype⟩ r _ hr
    simp only [recordAnswer] at *
    simp [hcond, hw, ht]

/-- Witness for C2: the amended theorem applied at the `shadowZone`
fixture. -/
theorem c2_exact_matches_all_answered_witness :
    (∃ r ∈ shadowZone.records,
      (r.rr.name == relativeName (gs "foo.test.") shadowZone.name &&
        typeOk typeA r.rr) = true) ∧
    setName (gs "foo.test.") fooRecord.rr ∈
      handleAnswers shadowZone [⟨gs "foo.test.", typeA⟩] := by
  refine ⟨⟨fooRecord, by decide, by decide⟩, ?_⟩
  exact (c2_exact_matches_all_answered shadowZone (gs "foo.test.") typeA
    ⟨fooRecord, by decide, by decide⟩).1 fooRecord (by decide) (by decide)

/-! ## Claim C3 -/

/-- C3.  The claim (and the repository's own integration test,
src/main_test.go TestRecords) says the zone `dove.test.` holding
`* 299 IN A 1.2.3.7` answers the query (`baz.dove.test.`, A) with
`baz.dove.test. 299 IN A 1.2.3.7`.  The wildcard guard compares the suffix
against the absolute query name and requires the bytes before the suffix to
contain no `'.'`; for the stored owner `*.` the suffix is empty and the
whole absolute name `baz.dove.test.` contains dots, so the guard rejects
and the handler returns no answer. -/
theorem c3_wildcard_never_fires :
    handleAnswers doveZone [⟨gs "baz.dove.test.", typeA⟩] = [] ∧
    wildcardMatches starRecord.rr.name (gs "baz.dove.test.") = false := by
  exact ⟨by decide, by decide⟩

/-! ## Claim C4 -/

/-- C4 counterexample.  With two wildcard records whose guards both accept
(`foo.test.`, A), the handler answers with BOTH synthesized records: there
is no first-match-wins rule in the code. -/
theorem c4_two_wildcards_both_answer :
    handleAnswers twoWildZone [⟨gs "foo.test.", typeA⟩] =
      [setName (gs "foo.test.") ⟨gs "*.oo.test.", typeA, 1, 299, [1, 1, 1, 1]⟩,
       setName (gs "foo.test.") ⟨gs "*.oo.test.", typeA, 1, 299, [2, 2, 2, 2]⟩] ∧
    (∀ r ∈ twoWildZone.records, goStartsWith r.rr.name (gs "*.") = true) := by
  exact ⟨by decide, by decide⟩

/-- C4 as amended.  Every record that fails the direct-match test but
passes the wildcard guard and the type filter contributes an answer,
regardless of any earlier matching wildcard record. -/
theorem c4_no_first_wildcard_cutoff (z : ZoneData) (qname : GoStr) (qtype : Nat)
    (r : DnsRecord) (hr : r ∈ z.records)
    (hnotexact : (r.rr.name == relativeName qname z.name && typeOk qtype r.rr) = false)
    (hw : wildcardMatches r.rr.name qname = true)
    (ht : typeOk qtype r.rr = true) :
    setName qname r.rr ∈ handleAnswers z [⟨qname, qtype⟩] := by
  apply mem_handleAnswers_of_recordAnswer z ⟨qname, qtype⟩ r _ hr
  simp only [recordAnswer] at *
  simp [hnotexact, hw, ht]

/-- Witness for C4: the second (later) wildcard record of the fixture is
answered. -/
theorem c4_no_first_wildcard_cutoff_witness :
    ((⟨gs "w2", ⟨gs "*.oo.test.", typeA, 1, 299, [2, 2, 2, 2]⟩⟩ : DnsRecord)
        ∈ twoWildZone.records) ∧
    setName (gs "foo.test.") (⟨gs "*.oo.test.", typeA, 1, 299, [2, 2, 2, 2]⟩ : RR) ∈
      handleAnswers twoWildZone [⟨gs "foo.test.", typeA⟩] := by
  refine ⟨by decide, ?_⟩
  exact c4_no_first_wildcard_cutoff twoWildZone (gs "foo.test.") typeA
    ⟨gs "w2", ⟨gs "*.oo.test.", typeA, 1, 299, [2, 2, 2, 2]⟩⟩
    (by decide) (by decide) (by decide) (by decide)

/-! ## Claim C5 -/

/-- C5.  The response RCODE is NXDOMAIN only when every question selected no
zone and the answer section is empty; and when some question does select a
zone, the RCODE is NoError and Authoritative is set (in particular a known
zone with no matching records yields an empty NoError authoritative
answer).  This holds because `missingZones` requires some `FindZone` to be
nil and `FindZone` does not depend on the question, so one nil means all
nil. -/
theorem c5_nxdomain_only_when_no_zone (t : ZoneTable) (qs : List Question) :
    ((serverHandle t qs).rcode = rcodeNXDOMAIN →
      (∀ q ∈ qs, findZone t q.qname = none) ∧ (serverHandle t qs).answers = []) ∧
    ((∃ q ∈ qs, (findZone t q.qname).isSome = true) →
      (serverHandle t qs).rcode = rcodeNoError ∧
        (serverHandle t qs).authoritative = true) := by
  have hmiss := serverHandle_missing t qs
  constructor
  · intro h3
    simp only [serverHandle] at h3
    by_cases hcond : ((qs.foldl (serverStep t) ([], false)).2 &&
        (qs.foldl (serverStep t) ([], false)).1.isEmpty) = true
    · have h2 : (qs.foldl (serverStep t) ([], false)).2 = true := by
        exact (Bool.and_eq_true_iff.mp hcond).1
      have hempty : (qs.foldl (serverStep t) ([], false)).1.isEmpty = true := by
        exact (Bool.and_eq_true_iff.mp hcond).2
      have hany : qs.any (fun q => (findZone t q.qname).isNone) = true := by
        rw [← hmiss]; exact h2
      obtain ⟨q0, hq0, hnone⟩ := List.any_eq_true.mp hany
      constructor
      · intro q hq
        have heq : findZone t q.qname = findZone t q0.qname := findZone_const t _ _
        rw [heq]
        exact Option.isNone_iff_eq_none.mp hnone
      · simp only [serverHandle]
        exact List.isEmpty_iff.mp hempty
    · rw [if_neg hcond] at h3
      exact absurd h3 (by decide)
  · rintro ⟨q0, hq0, hsome⟩
    have hall : ∀ q : Question, (findZone t q.qname).isNone = false := by
      intro q
      have heq : findZone t q.qname = findZone t q0.qname := findZone_const t _ _
      rw [heq]
      cases hfz : findZone t q0.qname with
      | none => rw [hfz] at hsome; exact absurd hsome (by decide)
      | some z => rfl
    have hany : qs.any (fun q => (findZone t q.qname).isNone) = false := by
      rw [List.any_eq_false]
      intro q hq
      simp [hall q]
    have h2 : (qs.foldl (serverStep t) ([], false)).2 = false := by
      rw [hmiss]; exact hany
    constructor
    · simp only [serverHandle, h2, Bool.false_and, if_neg (by decide : ¬False)]
      simp
    · rfl

/-- Witness for C5: applied at a table holding `example.com.` and one
question, the reply is NoError and authoritative. -/
theorem c5_nxdomain_only_when_no_zone_witness :
    (∃ q ∈ [(⟨gs "x.", typeA⟩ : Question)],
      (findZone exampleTable q.qname).isSome = true) ∧
    (serverHandle exampleTable [⟨gs "x.", typeA⟩]).rcode = rcodeNoError ∧
    (serverHandle exampleTable [⟨gs "x.", typeA⟩]).authoritative = true := by
  refine ⟨⟨⟨gs "x.", typeA⟩, by decide, by decide⟩, ?_⟩
  exact (c5_nxdomain_only_when_no_zone exampleTable [⟨gs "x.", typeA⟩]).2
    ⟨⟨gs "x.", typeA⟩, by decide, by decide⟩

/-! ## Helper lemmas: codec and file format -/

theorem get?_append_cons {α : Type} (l₁ : List α) (c : α) (l₂ : List α) :
    (l₁ ++ c :: l₂).get? l₁.length = some c := by
  induction l₁ with
  | nil => rfl
  | cons a l ih => simpa using ih

theorem drop_append_cons (l₁ : List Nat) (c : Nat) (l₂ : List Nat) :
    (l₁ ++ c :: l₂).drop (l₁.length + 1) = l₂ := by
  induction l₁ with
  | nil => rfl
  | cons a l ih => simpa using ih

theorem packRR_length (r : RR) :
    (packRR r).length = 2 + r.name.length + 4 + r.rdata.length := by
  simp [packRR]
  omega

theorem parseRR_pack (r : RR) (post : List Nat) :
    parseRR (packRR r ++ post) = some (r, (packRR r).length) := by
  have hassoc : packRR r ++ post =
      rrMagic :: r.name.length ::
        (r.name ++ r.rrtype :: r.cls :: r.ttl :: r.rdata.length :: (r.rdata ++ post)) := by
    simp [packRR]
  rw [hassoc]
  unfold parseRR
  have hnl : r.name.length ≤
      (r.name ++ r.rrtype :: r.cls :: r.ttl :: r.rdata.length :: (r.rdata ++ post)).length := by
    simp
  have hdrop : (r.name ++ r.rrtype :: r.cls :: r.ttl :: r.rdata.length ::
      (r.rdata ++ post)).drop r.name.length =
      r.rrtype :: r.cls :: r.ttl :: r.rdata.length :: (r.rdata ++ post) := by
    exact List.drop_left r.name _
  have htake : (r.name ++ r.rrtype :: r.cls :: r.ttl :: r.rdata.length ::
      (r.rdata ++ post)).take r.name.length = r.name := by
    exact List.take_left r.name _
  have hrl : r.rdata.length ≤ (r.rdata ++ post).length := by
    simp
  have htake2 : (r.rdata ++ post).take r.rdata.length = r.rdata := by
    exact List.take_left r.rdata post
  simp only [if_pos rfl, hdrop, htake, hrl, htake2, packRR_length]
  simp [hnl]

theorem unpackRR_pack (r : RR) (data : List Nat) (off : Nat) (post : List Nat)
    (hdrop : data.drop off = packRR r ++ post) :
    unpackRR data off = some (r, off + (packRR r).length) := by
  unfold unpackRR
  rw [hdrop, parseRR_pack]

theorem fileFrame_eq (r : DnsRecord) :
    fileFrame r = (r.id.length % 256) :: (r.id ++ packRR r.rr) := by
  simp [fileFrame, writeVarString]

theorem fileFrame_length (r : DnsRecord) :
    (fileFrame r).length = 1 + r.id.length + (packRR r.rr).length := by
  rw [fileFrame_eq]
  simp
  omega

theorem encodeRecords_cons (r : DnsRecord) (rest : List DnsRecord) :
    encodeRecords (r :: rest) = fileFrame r ++ encodeRecords rest := by
  simp [encodeRecords]

theorem drop_append_append (l₁ l₂ l₃ : List Nat) :
    (l₁ ++ l₂ ++ l₃).drop (l₁.length + l₂.length) = l₃ := by
  induction l₁ with
  | nil => simpa using List.drop_left l₂ l₃
  | cons a l ih =>
      have hsh : (a :: l) ++ l₂ ++ l₃ = a :: (l ++ l₂ ++ l₃) := rfl
      have harr : (a :: l).length + l₂.length = (l.length + l₂.length) + 1 := by
        simp
        omega
      rw [hsh, harr, List.drop_succ_cons]
      exact ih

theorem encodeRecords_length_ge (recs : List DnsRecord) :
    recs.length ≤ (encodeRecords recs).length := by
  induction recs with
  | nil => simp [encodeRecords]
  | cons r rest ih =>
      rw [encodeRecords_cons]
      simp only [List.length_append, List.length_cons]
      have h1 : 1 ≤ (fileFrame r).length := by
        rw [fileFrame_length]; omega
      omega

/-- The record-reading loop decodes a well-formed concatenation of frames
written after `Clear` plus `Patch`-per-record, provided the file is
nonempty and every id fits in the one-byte length prefix. -/
theorem loadLoop_encode (recs : List DnsRecord) : ∀ (pre : List Nat) (fuel : Nat),
    recs ≠ [] →
    (∀ r ∈ recs, r.id.length ≤ 255) →
    recs.length ≤ fuel →
    loadLoop (pre ++ encodeRecords recs) fuel pre.length = LoadOutcome.ok recs := by
  induction recs with
  | nil => intro pre fuel hne _ _; exact absurd rfl hne
  | cons r rest ih =>
      intro pre fuel hne hshort hfuel
      have hrshort : r.id.length ≤ 255 := hshort r (List.mem_cons_self r rest)
      have hmod : r.id.length % 256 = r.id.length := Nat.mod_eq_of_lt (by omega)
      obtain ⟨f, rfl⟩ : ∃ f, fuel = f + 1 := by
        cases fuel with
        | zero => simp at hfuel
        | succ f => exact ⟨f, rfl⟩
      have hdata : pre ++ encodeRecords (r :: rest) =
          pre ++ (r.id.length % 256) :: (r.id ++ (packRR r.rr ++ encodeRecords rest)) := by
        rw [encodeRecords_cons, fileFrame_eq]
        simp
      rw [hdata]
      have hget : (pre ++ (r.id.length % 256) ::
          (r.id ++ (packRR r.rr ++ encodeRecords rest))).get? pre.length
          = some (r.id.length % 256) := get?_append_cons _ _ _
      have hlen : (pre ++ (r.id.length % 256) ::
          (r.id ++ (packRR r.rr ++ encodeRecords rest))).length
          = pre.length + 1 + r.id.length + (packRR r.rr).length
            + (encodeRecords rest).length := by
        simp
        omega
      have hbound : pre.length + 1 + (r.id.length % 256) ≤
          (pre ++ (r.id.length % 256) ::
            (r.id ++ (packRR r.rr ++ encodeRecords rest))).length := by
        rw [hlen, hmod]
        have : 6 ≤ (packRR r.rr).length := by rw [packRR_length]; omega
        omega
      have hdropid : (pre ++ (r.id.length % 256) ::
          (r.id ++ (packRR r.rr ++ encodeRecords rest))).drop (pre.length + 1)
          = r.id ++ (packRR r.rr ++ encodeRecords rest) := drop_append_cons _ _ _
      have htakeid : ((pre ++ (r.id.length % 256) ::
          (r.id ++ (packRR r.rr ++ encodeRecords rest))).drop (pre.length + 1)).take
            (r.id.length % 256) = r.id := by
        rw [hdropid, hmod]
        exact List.take_left r.id _
      have hread : readVarString (pre ++ (r.id.length % 256) ::
          (r.id ++ (packRR r.rr ++ encodeRecords rest))) pre.length
          = some (r.id, pre.length + 1 + (r.id.length % 256)) := by
        unfold readVarString
        simp only [hget]
        rw [if_pos hbound, htakeid]
      have hdroprr : (pre ++ (r.id.length % 256) ::
          (r.id ++ (packRR r.rr ++ encodeRecords rest))).drop
            (pre.length + 1 + (r.id.length % 256))
          = packRR r.rr ++ encodeRecords rest := by
        have hshape : pre ++ (r.id.length % 256) ::
            (r.id ++ (packRR r.rr ++ encodeRecords rest))
            = ((pre ++ [r.id.length % 256]) ++ r.id) ++ (packRR r.rr ++ encodeRecords rest) := by
          simp
        have hidx : pre.length + 1 + (r.id.length % 256)
            = (pre ++ [r.id.length % 256]).length + r.id.length := by
          simp [hmod]
        rw [hshape, hidx]
        exact drop_append_append _ _ _
      have hunpack : unpackRR (pre ++ (r.id.length % 256) ::
          (r.id ++ (packRR r.rr ++ encodeRecords rest)))
            (pre.length + 1 + (r.id.length % 256))
          = some (r.rr, pre.length + 1 + (r.id.length % 256) + (packRR r.rr).length) := by
        exact unpackRR_pack r.rr _ _ _ hdroprr
      rw [loadLoop, hread]
      simp only [hunpack]
      cases rest with
      | nil =>
          have hend : pre.length + 1 + (r.id.length % 256) + (packRR r.rr).length
              = (pre ++ (r.id.length % 256) ::
                  (r.id ++ (packRR r.rr ++ encodeRecords ([] : List DnsRecord)))).length := by
            rw [hlen, hmod]
            simp [encodeRecords]
          rw [if_pos hend]
      | cons r2 rest2 =>
          have hner : encodeRecords (r2 :: rest2) ≠ [] := by
            rw [encodeRecords_cons]
            intro hcontra
            have hlc := congrArg List.length hcontra
            simp only [List.length_append, fileFrame_length, List.length_nil] at hlc
            omega
          have hend : pre.length + 1 + (r.id.length % 256) + (packRR r.rr).length
              ≠ (pre ++ (r.id.length % 256) ::
                  (r.id ++ (packRR r.rr ++ encodeRecords (r2 :: rest2)))).length := by
            rw [hlen, hmod]
            intro hcontra
            have hlen2 : (encodeRecords (r2 :: rest2)).length = 0 := by omega
            exact hner (List.eq_nil_of_length_eq_zero hlen2)
          rw [if_neg hend]
          have hdata2 : pre ++ (r.id.length % 256) ::
              (r.id ++ (packRR r.rr ++ encodeRecords (r2 :: rest2)))
              = (pre ++ fileFrame r) ++ encodeRecords (r2 :: rest2) := by
            rw [fileFrame_eq]
            simp
          have hoffeq : pre.length + 1 + (r.id.length % 256) + (packRR r.rr).length
              = (pre ++ fileFrame r).length := by
            rw [hmod]
            simp only [List.length_append, fileFrame_length]
            omega
          rw [hdata2, hoffeq]
          rw [ih (pre ++ fileFrame r) f (by simp)
            (fun r' hr' => hshort r' (List.mem_cons_of_mem r hr'))
            (by simp only [List.length_cons] at hfuel ⊢; omega)]

theorem internalTransferFile_eq (z : ZoneData) :
    internalTransferFile z = encodeRecords z.records := by
  unfold internalTransferFile fileClear
  have aux : ∀ (recs : List DnsRecord) (c : List Nat),
      recs.foldl filePatch c = c ++ encodeRecords recs := by
    intro recs
    induction recs with
    | nil => intro c; simp [encodeRecords]
    | cons r rest ih =>
        intro c
        simp only [List.foldl_cons, filePatch]
        rw [ih, encodeRecords_cons, List.append_assoc]
  simpa using aux z.records []

theorem take_append_le (l₁ l₂ : List Nat) (n : Nat) (h : n ≤ l₁.length) :
    (l₁ ++ l₂).take n = l₁.take n := by
  induction l₁ generalizing n with
  | nil =>
      have : n = 0 := by simpa using h
      simp [this]
  | cons a l ih =>
      cases n with
      | zero => rfl
      | succ m =>
          simp only [List.cons_append, List.take_succ_cons]
          rw [ih m (by simpa using h)]

/-! ## Helper lemmas: etcd adapter -/

theorem goStartsWith_append (p s : GoStr) : goStartsWith (p ++ s) p = true := by
  induction p with
  | nil => cases s <;> rfl
  | cons a l ih => simp [goStartsWith, ih]

theorem goStartsWith_mono (k a b : GoStr) (h : goStartsWith k (a ++ b) = true) :
    goStartsWith k a = true := by
  induction a generalizing k with
  | nil => cases k <;> rfl
  | cons x a' ih =>
      cases k with
      | nil => simp [goStartsWith] at h
      | cons y k' =>
          simp only [List.cons_append, goStartsWith, Bool.and_eq_true] at h ⊢
          exact ⟨h.1, ih k' h.2⟩

theorem append_ne_of_ne (p a b : GoStr) (h : a ≠ b) : p ++ a ≠ p ++ b := by
  intro hcontra
  apply h
  have hc := congrArg (List.drop p.length) hcontra
  simpa [List.drop_left] using hc

theorem kvPut_mem_self (kv : KV) (k : GoStr) (v : List Nat) : (k, v) ∈ kvPut kv k v := by
  unfold kvPut
  by_cases h : kv.any (fun e => e.1 == k) = true
  · rw [if_pos h]
    obtain ⟨e, he, heq⟩ := List.any_eq_true.mp h
    refine List.mem_map.mpr ⟨e, he, ?_⟩
    simp [heq]
  · rw [if_neg h]
    simp

theorem kvPut_mem_of_ne (kv : KV) (k : GoStr) (v : List Nat) (k' : GoStr) (v' : List Nat)
    (hne : k' ≠ k) (hmem : (k', v') ∈ kv) : (k', v') ∈ kvPut kv k v := by
  unfold kvPut
  by_cases h : kv.any (fun e => e.1 == k) = true
  · rw [if_pos h]
    refine List.mem_map.mpr ⟨(k', v'), hmem, ?_⟩
    simp [hne]
  · rw [if_neg h]
    exact List.mem_append_left _ hmem

theorem kvPut_mem_elim (kv : KV) (k : GoStr) (v : List Nat) (e : GoStr × List Nat)
    (hmem : e ∈ kvPut kv k v) : e = (k, v) ∨ (e ∈ kv ∧ e.1 ≠ k) := by
  unfold kvPut at hmem
  by_cases h : kv.any (fun x => x.1 == k) = true
  · rw [if_pos h] at hmem
    obtain ⟨x, hx, hxe⟩ := List.mem_map.mp hmem
    by_cases hk : (x.1 == k) = true
    · left
      rw [← hxe]
      simp [hk]
    · right
      rw [← hxe]
      simp only [hk]
      simp only [Bool.false_eq_true, if_false]
      exact ⟨hx, by simpa using hk⟩
  · rw [if_neg h] at hmem
    rcases List.mem_append.mp hmem with h1 | h2
    · right
      refine ⟨h1, fun hek => h ?_⟩
      exact List.any_eq_true.mpr ⟨e, h1, by simp [hek]⟩
    · left
      simpa using h2

theorem etcdLoadEntries_total (pre : GoStr) (entries : List (GoStr × List Nat))
    (hwf : ∀ e ∈ entries, e.1 ≠ pre ++ updatedHashKey →
      ∃ res, unpackRR e.2 0 = some res) :
    ∃ recs, etcdLoadEntries pre entries = some recs := by
  induction entries with
  | nil => exact ⟨[], rfl⟩
  | cons e rest ih =>
      obtain ⟨k, v⟩ := e
      obtain ⟨recs, hrecs⟩ := ih (fun e' he' => hwf e' (List.mem_cons_of_mem _ he'))
      by_cases hk : (k == pre ++ updatedHashKey) = true
      · exact ⟨recs, by simp [etcdLoadEntries, hk, hrecs]⟩
      · have hne : k ≠ pre ++ updatedHashKey := by simpa using hk
        obtain ⟨⟨rr, n⟩, hu⟩ := hwf (k, v) (List.mem_cons_self _ _) hne
        exact ⟨⟨k.drop pre.length, rr⟩ :: recs,
          by simp [etcdLoadEntries, hk, hu, hrecs]⟩

theorem etcdLoadEntries_mem (pre : GoStr) (entries : List (GoStr × List Nat))
    (recs : List DnsRecord) (k : GoStr) (v : List Nat) (rr : RR) (n : Nat)
    (hload : etcdLoadEntries pre entries = some recs)
    (hmem : (k, v) ∈ entries) (hk : k ≠ pre ++ updatedHashKey)
    (hu : unpackRR v 0 = some (rr, n)) :
    (⟨k.drop pre.length, rr⟩ : DnsRecord) ∈ recs := by
  induction entries generalizing recs with
  | nil => cases hmem
  | cons e rest ih =>
      obtain ⟨k', v'⟩ := e
      by_cases hk' : (k' == pre ++ updatedHashKey) = true
      · have hskip : etcdLoadEntries pre ((k', v') :: rest) = etcdLoadEntries pre rest := by
          simp [etcdLoadEntries, hk']
        rw [hskip] at hload
        rcases List.mem_cons.mp hmem with heq | hmem'
        · exfalso
          apply hk
          have hkk : k = k' := congrArg Prod.fst heq
          rw [hkk]
          simpa using hk'
        · exact ih recs hload hmem'
      · cases hu' : unpackRR v' 0 with
        | none => simp [etcdLoadEntries, hk', hu'] at hload
        | some pr =>
            obtain ⟨rr', n'⟩ := pr
            cases hrest : etcdLoadEntries pre rest with
            | none => simp [etcdLoadEntries, hk', hu', hrest] at hload
            | some recs' =>
                have hrecs : recs = ⟨k'.drop pre.length, rr'⟩ :: recs' := by
                  have := hload
                  simp [etcdLoadEntries, hk', hu', hrest] at this
                  exact this.symm
                rcases List.mem_cons.mp hmem with heq | hmem'
                · have hkk : k = k' := congrArg Prod.fst heq
                  have hvv : v = v' := congrArg Prod.snd heq
                  have hrr : rr' = rr := by
                    rw [← hvv] at hu'
                    rw [hu] at hu'
                    exact (congrArg Prod.fst (Option.some.injEq .. ▸ hu' : (rr, n) = (rr', n'))).symm
                  rw [hrecs, hkk, hrr]
                  exact List.mem_cons_self _ _
                · rw [hrecs]
                  exact List.mem_cons_of_mem _ (ih recs' hrest hmem')

/-! ## Claim C7 -/

/-- C7.  The claim (and spec §4.1, for which an empty record set is a valid
load result) says a successfully mirrored zone reads back with exactly the
zone's records.  For a zone with zero records `InternalTransfer` succeeds
and truncates the mirror file to zero bytes, but `FileStorage.Load` then
dereferences `data[0]` inside `readVarString` on the empty byte slice — a
runtime panic instead of a load of the empty record list. -/
theorem c7_empty_zone_mirror_unreadable :
    emptyZone.records = [] ∧
    internalTransferFile emptyZone = fileClear ∧
    fileLoad (internalTransferFile emptyZone) = LoadOutcome.crashed := by
  exact ⟨rfl, rfl, by decide⟩

/-! ## Claim C8 -/

/-- C8 counterexample.  On the etcd backend, patching a record whose id is
the reserved token key `__updatedHash` makes the transaction's second put
overwrite the record's own key with the fresh token, and the subsequent
load classifies that key as the token entry: the loaded zone is empty, so
patch-then-load does not contain the record. -/
theorem c8_hash_id_record_lost :
    etcdLoad (gs "P/") (etcdPatch (gs "P/") [] (gs "test.") hashIdRecord (gs "uuid1"))
      (gs "test.") = some [] ∧
    hashIdRecord.id = updatedHashKey := by
  exact ⟨by decide, by decide⟩

/-- C8 as amended.  On the etcd backend, patch-then-load contains the
patched record provided its id is not the reserved token key (and every
pre-existing value under the zone's prefix is decodable), and
clear-then-load yields zero records.  On the file backend, patch-then-load
decodes all records (including the patched one) provided the prior contents
are a well-formed frame sequence and every id fits the one-byte length
prefix, while clear-then-load does not yield an empty zone: loading the
truncated file panics. -/
theorem c8_roundtrip_amended (p : GoStr) (kv : KV) (z : GoStr) (r : DnsRecord) (hash : GoStr)
    (hid : r.id ≠ updatedHashKey)
    (hwf : ∀ e ∈ kv, goStartsWith e.1 (etcdPrefixOf p z) = true →
      e.1 ≠ etcdPrefixOf p z ++ updatedHashKey → ∃ res, unpackRR e.2 0 = some res) :
    (∃ recs, etcdLoad p (etcdPatch p kv z r hash) z = some recs ∧
      (⟨r.id, r.rr⟩ : DnsRecord) ∈ recs) ∧
    etcdLoad p (etcdClear p kv z) z = some [] ∧
    (∀ (recs0 : List DnsRecord) (r' : DnsRecord),
      (∀ x ∈ recs0 ++ [r'], x.id.length ≤ 255) →
      fileLoad (filePatch (encodeRecords recs0) r') = LoadOutcome.ok (recs0 ++ [r'])) ∧
    fileLoad fileClear = LoadOutcome.crashed := by
  refine ⟨?_, ?_, ?_, by decide⟩
  · -- etcd patch-then-load
    have hkeyne : etcdPrefixOf p z ++ r.id ≠ etcdPrefixOf p z ++ updatedHashKey :=
      append_ne_of_ne _ _ _ hid
    have hunp : unpackRR (packRR r.rr) 0 = some (r.rr, (packRR r.rr).length) := by
      have hp := parseRR_pack r.rr []
      rw [List.append_nil] at hp
      unfold unpackRR
      rw [List.drop_zero, hp]
      simp
    have hmemstore : (etcdPrefixOf p z ++ r.id, packRR r.rr) ∈
        etcdPatch p kv z r hash := by
      unfold etcdPatch
      exact kvPut_mem_of_ne _ _ _ _ _ hkeyne (kvPut_mem_self _ _ _)
    have hmemrange : (etcdPrefixOf p z ++ r.id, packRR r.rr) ∈
        kvGetRange (etcdPatch p kv z r hash) (etcdPrefixOf p z) := by
      unfold kvGetRange
      refine List.mem_filter.mpr ⟨hmemstore, ?_⟩
      exact goStartsWith_append _ _
    have hwf2 : ∀ e ∈ kvGetRange (etcdPatch p kv z r hash) (etcdPrefixOf p z),
        e.1 ≠ etcdPrefixOf p z ++ updatedHashKey → ∃ res, unpackRR e.2 0 = some res := by
      intro e he hne
      obtain ⟨hmem, hpre⟩ := List.mem_filter.mp he
      unfold etcdPatch at hmem
      rcases kvPut_mem_elim _ _ _ _ hmem with heq | ⟨hmem1, _⟩
      · exfalso
        exact hne (congrArg Prod.fst heq)
      · rcases kvPut_mem_elim _ _ _ _ hmem1 with heq | ⟨hmem0, _⟩
        · have hv : e.2 = packRR r.rr := congrArg Prod.snd heq
          rw [hv]
          exact ⟨(r.rr, (packRR r.rr).length), hunp⟩
        · exact hwf e hmem0 hpre hne
    obtain ⟨recs, hrecs⟩ := etcdLoadEntries_total _ _ hwf2
    refine ⟨recs, hrecs, ?_⟩
    have hdropid : (etcdPrefixOf p z ++ r.id).drop (etcdPrefixOf p z).length = r.id :=
      List.drop_left _ _
    have := etcdLoadEntries_mem (etcdPrefixOf p z) _ recs
      (etcdPrefixOf p z ++ r.id) (packRR r.rr) r.rr (packRR r.rr).length
      hrecs hmemrange hkeyne hunp
    rwa [hdropid] at this
  · -- etcd clear-then-load
    have hrange : kvGetRange (etcdClear p kv z) (etcdPrefixOf p z) = [] := by
      unfold kvGetRange etcdClear kvDelRange
      rw [List.filter_filter]
      apply List.filter_eq_nil_iff.mpr
      intro e he
      intro hcontra
      rw [Bool.and_eq_true] at hcontra
      have hpz : goStartsWith e.1 (p ++ z) = true := by
        have : goStartsWith e.1 ((p ++ z) ++ gs "/") = true := hcontra.1
        exact goStartsWith_mono _ _ _ this
      have := hcontra.2
      rw [hpz] at this
      simp at this
    unfold etcdLoad
    rw [hrange]
    rfl
  · -- file patch-then-load
    intro recs0 r' hshort
    have henc : filePatch (encodeRecords recs0) r' = encodeRecords (recs0 ++ [r']) := by
      unfold filePatch encodeRecords
      simp
    rw [henc]
    unfold fileLoad
    have := loadLoop_encode (recs0 ++ [r']) [] ((encodeRecords (recs0 ++ [r'])).length + 1)
      (by simp) hshort
      (le_trans (encodeRecords_length_ge _) (Nat.le_succ _))
    simpa using this

/-- Witness for C8: the amended round-trip applied at a fresh store and the
apex record. -/
theorem c8_roundtrip_amended_witness :
    (∃ recs, etcdLoad (gs "P/") (etcdPatch (gs "P/") [] (gs "test.") apexRecord (gs "u1"))
        (gs "test.") = some recs ∧ (⟨apexRecord.id, apexRecord.rr⟩ : DnsRecord) ∈ recs) ∧
    etcdLoad (gs "P/") (etcdClear (gs "P/") [] (gs "test.")) (gs "test.") = some [] := by
  have h := c8_roundtrip_amended (gs "P/") [] (gs "test.") apexRecord (gs "u1")
    (by decide) (by simp)
  exact ⟨h.1, h.2.1⟩

/-! ## Claim C10 -/

set_option maxRecDepth 4000

/-- C10.  `writeVarString` stores the id's length modulo 256 in the single
prefix byte; reading back yields the first `len mod 256` bytes of the id,
which equals the id exactly when the id is at most 255 bytes long.  For the
256-byte id fixture the written prefix byte is 0, so a subsequent load
misparses the frame (it tries to decode the id bytes as a packed RR) and
fails: the record cannot be recovered from the zone file. -/
theorem c10_var_string_length_mod_256 :
    (∀ id : GoStr, (writeVarString id).head? = some (id.length % 256)) ∧
    (∀ id rest : GoStr,
      readVarString (writeVarString id ++ rest) 0
        = some (id.take (id.length % 256), 1 + id.length % 256)) ∧
    (∀ id : GoStr, (id.take (id.length % 256) = id ↔ id.length ≤ 255)) ∧
    longIdRecord.id.length = 256 ∧
    fileLoad (filePatch fileClear longIdRecord) = LoadOutcome.failed := by
  refine ⟨fun id => rfl, ?_, ?_, by decide, by decide⟩
  · intro id rest
    have hmodle : id.length % 256 ≤ id.length := Nat.mod_le _ _
    unfold readVarString writeVarString
    have hget : (((id.length % 256) :: id) ++ rest).get? 0 = some (id.length % 256) := rfl
    simp only [hget]
    have hbound : 0 + 1 + id.length % 256 ≤ (((id.length % 256) :: id) ++ rest).length := by
      simp
      omega
    rw [if_pos hbound]
    have hdrop : (((id.length % 256) :: id) ++ rest).drop (0 + 1) = id ++ rest := rfl
    rw [hdrop, take_append_le id rest _ hmodle]
  · intro id
    constructor
    · intro h
      have hl := congrArg List.length h
      rw [List.length_take] at hl
      have hmodle : id.length % 256 ≤ id.length := Nat.mod_le _ _
      rw [Nat.min_eq_left hmodle] at hl
      have hmodlt : id.length % 256 < 256 := Nat.mod_lt _ (by omega)
      omega
    · intro h
      have hmod : id.length % 256 = id.length := Nat.mod_eq_of_lt (by omega)
      rw [hmod, List.take_length]

/-! ## Helper lemmas: coordinator -/

theorem zoneLoop_append (storage : StorageBehavior) (a b : List GoStr)
    (st : CoordState) (evs : List (GoStr × Option ZoneData)) (trs : List ZoneData) :
    zoneLoop storage (a ++ b) st evs trs =
      (if (zoneLoop storage a st evs trs).completed then
        zoneLoop storage b (zoneLoop storage a st evs trs).state
          (zoneLoop storage a st evs trs).events (zoneLoop storage a st evs trs).transfers
      else zoneLoop storage a st evs trs) := by
  induction a generalizing st evs trs with
  | nil => simp [zoneLoop]
  | cons z rest ih =>
      simp only [List.cons_append, zoneLoop]
      cases hcur : storage.isCurrent z (tableLookup st.zones z) with
      | none => simp
      | some b' =>
          cases b' with
          | true => exact ih st evs trs
          | false =>
              cases hload : storage.load z with
              | none => simp
              | some zn => exact ih _ _ _

theorem zoneLoop_load_failure (storage : StorageBehavior) (z : GoStr) (rest : List GoStr)
    (st : CoordState) (evs : List (GoStr × Option ZoneData)) (trs : List ZoneData)
    (hcur : storage.isCurrent z (tableLookup st.zones z) = some false)
    (hload : storage.load z = none) :
    zoneLoop storage (z :: rest) st evs trs = ⟨st, evs, trs, false⟩ := by
  simp [zoneLoop, hcur, hload]

/-! ## Claim C9 -/

/-- C9 counterexample.  Storage lists zones `a.` and `b.`, both stale;
loading `a.` fails while `b.` has a fresh copy available.  The pass keeps
the prior snapshot of `a.` but aborts immediately: `b.` is never reloaded
even though it is stale and loadable, refuting "the remaining zones of that
pass are processed normally". -/
theorem c9_later_zone_not_reloaded :
    (loadZones failAStorage coordSt).state.zones = [(gs "a.", oldZ1), (gs "b.", oldZ2)] ∧
    failAStorage.isCurrent (gs "b.") (tableLookup coordSt.zones (gs "b.")) = some false ∧
    failAStorage.load (gs "b.") = some newZ2 ∧
    tableLookup (loadZones failAStorage coordSt).state.zones (gs "b.") ≠ some newZ2 := by
  exact ⟨by decide, by decide, by decide, by decide⟩

/-- C9 as amended.  When the update loop reaches a zone `z` whose snapshot
is stale and whose load fails, the prior snapshot of `z` is kept (its table
entry is neither removed nor replaced), but the whole reconciliation pass
aborts there: the state, notifications and mirror transfers are exactly
those accumulated before `z`, the zones after `z` in the listing are not
processed, and the removal loop does not run. -/
theorem c9_load_failure_aborts_pass (storage : StorageBehavior) (st : CoordState)
    (ids1 ids2 : List GoStr) (z : GoStr) (st1 : CoordState)
    (evs1 : List (GoStr × Option ZoneData)) (trs1 : List ZoneData)
    (hlist : storage.listZones = some (ids1 ++ z :: ids2))
    (hpre : zoneLoop storage ids1 { st with zoneIds := ids1 ++ z :: ids2 } [] []
      = ⟨st1, evs1, trs1, true⟩)
    (hcur : storage.isCurrent z (tableLookup st1.zones z) = some false)
    (hload : storage.load z = none) :
    loadZones storage st = ⟨st1, evs1, trs1, false⟩ ∧
    tableLookup (loadZones storage st).state.zones z = tableLookup st1.zones z := by
  have hmain : loadZones storage st = ⟨st1, evs1, trs1, false⟩ := by
    unfold loadZones
    rw [hlist]
    have hloop : zoneLoop storage (ids1 ++ z :: ids2)
        { st with zoneIds := ids1 ++ z :: ids2 } [] [] = ⟨st1, evs1, trs1, false⟩ := by
      rw [zoneLoop_append, hpre]
      simp only [if_pos rfl]
      exact zoneLoop_load_failure storage z ids2 st1 evs1 trs1 hcur hload
    simp only [hloop]
    simp
  exact ⟨hmain, by rw [hmain]⟩

/-- Witness for C9: the amended theorem applied at the two-zone fixture,
with the failing zone first. -/
theorem c9_load_failure_aborts_pass_witness :
    loadZones failAStorage coordSt =
      ⟨⟨[gs "a.", gs "b."], [(gs "a.", oldZ1), (gs "b.", oldZ2)]⟩, [], [], false⟩ ∧
    tableLookup (loadZones failAStorage coordSt).state.zones (gs "a.")
      = tableLookup [(gs "a.", oldZ1), (gs "b.", oldZ2)] (gs "a.") := by
  have h := c9_load_failure_aborts_pass failAStorage coordSt [] [gs "b."] (gs "a.")
    ⟨[gs "a.", gs "b."], [(gs "a.", oldZ1), (gs "b.", oldZ2)]⟩ [] []
    (by decide) (by decide) (by decide) (by decide)
  exact ⟨h.1, by
    have h2 := h.2
    exact h2⟩

/-! ## Helper lemmas: heap view -/

theorem set_append_len (h : Heap) (a b : RR) : (h ++ [a]).set h.length b = h ++ [b] := by
  induction h with
  | nil => rfl
  | cons x l ih =>
      show x :: ((l ++ [a]).set l.length b) = x :: (l ++ [b])
      rw [ih]

theorem heapRead_append_len (h : Heap) (rr : RR) : heapRead (h ++ [rr]) h.length = rr := by
  unfold heapRead
  rw [get?_append_cons h rr []]
  rfl

theorem hRecordStep_cases (relName qName : GoStr) (qtype : Nat)
    (h : Heap) (ans : List Nat) (rec : HRecord) :
    hRecordStep relName qName qtype (h, ans) rec = (h, ans) ∨
    (hRecordStep relName qName qtype (h, ans) rec
        = (h ++ [setName qName (heapRead h rec.addr)], ans ++ [h.length]) ∨
     hRecordStep relName qName qtype (h, ans) rec
        = (h ++ [setName qName (heapRead h rec.addr)], ans)) := by
  unfold hRecordStep heapAlloc heapWrite
  by_cases h1 : ((heapRead h rec.addr).name == relName && typeOk qtype (heapRead h rec.addr)) = true
  · right
    left
    simp only [h1, if_true]
    rw [heapRead_append_len, set_append_len]
  · simp only [h1]
    by_cases h2 : wildcardMatches (heapRead h rec.addr).name qName = true
    · right
      simp only [h2, if_true]
      rw [heapRead_append_len, set_append_len]
      by_cases h3 : typeOk qtype (heapRead h rec.addr) = true
      · left
        simp [h3]
      · right
        simp [h3]
    · left
      simp [h2]

/-- The invariant carried through the handler's loops: the heap only grew,
pre-existing cells are untouched, and every collected answer address is a
fresh cell holding a copy of some stored record with its owner set to some
question's name. -/
def HeapInv (h0 : Heap) (zone : HZone) (qs : List Question) (s : Heap × List Nat) : Prop :=
  h0.length ≤ s.1.length ∧
  (∀ a, a < h0.length → s.1.get? a = h0.get? a) ∧
  (∀ a ∈ s.2, h0.length ≤ a ∧ a < s.1.length ∧
    ∃ q ∈ qs, ∃ rec ∈ zone.records,
      s.1.get? a = some (setName q.qname (heapRead h0 rec.addr)))

theorem heapRead_agree (h0 h : Heap) (a : Nat)
    (hag : h.get? a = h0.get? a) : heapRead h a = heapRead h0 a := by
  unfold heapRead
  rw [hag]

theorem hRecordStep_inv (h0 : Heap) (zone : HZone) (qs : List Question)
    (q : Question) (hq : q ∈ qs)
    (hvalid : ∀ rec ∈ zone.records, rec.addr < h0.length)
    (s : Heap × List Nat) (rec : HRecord) (hrec : rec ∈ zone.records)
    (hinv : HeapInv h0 zone qs s) :
    HeapInv h0 zone qs
      (hRecordStep (relativeName q.qname zone.name) q.qname q.qtype s rec) := by
  obtain ⟨h, ans⟩ := s
  obtain ⟨hlen, hag, hans⟩ := hinv
  dsimp only at hlen hag hans
  have haddr : rec.addr < h0.length := hvalid rec hrec
  have hread : heapRead h rec.addr = heapRead h0 rec.addr :=
    heapRead_agree h0 h rec.addr (hag rec.addr haddr)
  rcases hRecordStep_cases (relativeName q.qname zone.name) q.qname q.qtype h ans rec
    with hstep | hstep | hstep <;> rw [hstep]
  · exact ⟨hlen, hag, hans⟩
  · refine ⟨by simp; omega, ?_, ?_⟩
    · intro a ha
      rw [List.get?_append (by omega)]
      exact hag a ha
    · intro a hmem
      rcases List.mem_append.mp hmem with hold | hnew
      · obtain ⟨h1a, h2a, qw, hqw, recw, hrecw, hcontent⟩ := hans a hold
        refine ⟨h1a, by simp; omega, qw, hqw, recw, hrecw, ?_⟩
        rw [List.get?_append (by omega)]
        exact hcontent
      · have haeq : a = h.length := by simpa using hnew
        subst haeq
        refine ⟨by omega, by simp, q, hq, rec, hrec, ?_⟩
        rw [← hread]
        exact get?_append_cons h _ []
  · refine ⟨by simp; omega, ?_, ?_⟩
    · intro a ha
      rw [List.get?_append (by omega)]
      exact hag a ha
    · intro a hmem
      obtain ⟨h1a, h2a, qw, hqw, recw, hrecw, hcontent⟩ := hans a hmem
      refine ⟨h1a, by simp; omega, qw, hqw, recw, hrecw, ?_⟩
      rw [List.get?_append (by omega)]
      exact hcontent

theorem records_fold_inv (h0 : Heap) (zone : HZone) (qs : List Question)
    (q : Question) (hq : q ∈ qs)
    (hvalid : ∀ rec ∈ zone.records, rec.addr < h0.length)
    (l : List HRecord) (hl : ∀ rec ∈ l, rec ∈ zone.records)
    (s : Heap × List Nat) (hinv : HeapInv h0 zone qs s) :
    HeapInv h0 zone qs
      (l.foldl (hRecordStep (relativeName q.qname zone.name) q.qname q.qtype) s) := by
  induction l generalizing s with
  | nil => exact hinv
  | cons rec rest ih =>
      simp only [List.foldl_cons]
      exact ih (fun r hr => hl r (List.mem_cons_of_mem _ hr)) _
        (hRecordStep_inv h0 zone qs q hq hvalid s rec (hl rec (List.mem_cons_self _ _)) hinv)

theorem questions_fold_inv (h0 : Heap) (zone : HZone) (qs : List Question)
    (hvalid : ∀ rec ∈ zone.records, rec.addr < h0.length)
    (l : List Question) (hl : ∀ q ∈ l, q ∈ qs)
    (s : Heap × List Nat) (hinv : HeapInv h0 zone qs s) :
    HeapInv h0 zone qs (l.foldl (hQuestionStep zone) s) := by
  induction l generalizing s with
  | nil => exact hinv
  | cons q rest ih =>
      simp only [List.foldl_cons]
      refine ih (fun q' hq' => hl q' (List.mem_cons_of_mem _ hq')) _ ?_
      unfold hQuestionStep
      exact records_fold_inv h0 zone qs q (hl q (List.mem_cons_self _ _)) hvalid
        zone.records (fun _ hr => hr) s hinv

/-! ## Claim C6 -/

/-- C6.  Every answer the handler emits lives at a freshly allocated heap
address — at or past the end of the original heap, hence distinct from
every stored record's address (nothing is aliased) — and its content is
some stored record with its owner name rewritten to a question name exactly
as received; and every pre-existing heap cell, in particular every stored
record of the zone, is byte-for-byte unchanged by query processing. -/
theorem c6_answers_fresh_copies_zone_unchanged (z : HZone) (qs : List Question)
    (h0 : Heap) (hvalid : ∀ rec ∈ z.records, rec.addr < h0.length) :
    (∀ a, a < h0.length → (handleRequestHeap z qs h0).1.get? a = h0.get? a) ∧
    (∀ a ∈ (handleRequestHeap z qs h0).2,
      h0.length ≤ a ∧ (∀ rec ∈ z.records, a ≠ rec.addr) ∧
      ∃ q ∈ qs, ∃ rec ∈ z.records,
        (handleRequestHeap z qs h0).1.get? a
          = some (setName q.qname (heapRead h0 rec.addr))) := by
  have hinv0 : HeapInv h0 z qs (h0, []) := by
    refine ⟨le_refl _, fun a _ => rfl, ?_⟩
    intro a ha
    cases ha
  have hinv := questions_fold_inv h0 z qs hvalid qs (fun _ hq => hq) (h0, []) hinv0
  obtain ⟨hlen, hag, hans⟩ := hinv
  constructor
  · intro a ha
    exact hag a ha
  · intro a hmem
    obtain ⟨h1a, h2a, qw, hqw, recw, hrecw, hcontent⟩ := hans a hmem
    refine ⟨h1a, ?_, qw, hqw, recw, hrecw, hcontent⟩
    intro rec hrec
    have := hvalid rec hrec
    omega

/-- Witness for C6: the two-record fixture heap, queried for
`foo.dove.test.`; the first stored cell is unchanged. -/
theorem c6_answers_fresh_copies_zone_unchanged_witness :
    (∀ rec ∈ fixtureHZone.records, rec.addr < fixtureHeap.length) ∧
    (handleRequestHeap fixtureHZone [⟨gs "foo.dove.test.", typeA⟩] fixtureHeap).1.get? 0
      = fixtureHeap.get? 0 := by
  refine ⟨by decide, ?_⟩
  exact (c6_answers_fresh_copies_zone_unchanged fixtureHZone
    [⟨gs "foo.dove.test.", typeA⟩] fixtureHeap (by decide)).1 0 (by decide)

end Dove
